import Mathlib

/-!
Verification of the PythonVRFT estimation pipeline against its specification.

The development shallowly embeds the repository's code:
* `src/vrft/vrft/vrft_algo.py` (present in the repository):
  `calcMinimum`, `calcControllerReponse`, `vrftAlgorithm` and its validation
  stage are translated directly, including their dynamic (isinstance-based)
  argument checks, which are modelled by the `PyVal` sum type.
* The virtual-reference engine (`virtual_reference`) and the orchestrator
  (`compute_vrft`) are referenced by the repository's tests
  (`src/test/test_reference.py`) and example (`src/examples/1_example.py`)
  but their defining modules are not part of the sources; they are modelled
  from the specification, as marked in their doc comments.

Machine floating-point arithmetic is embedded as exact rational arithmetic,
so "equal up to floating tolerance" statements become exact equalities.
-/

namespace Vrft

/-- Python exception kinds relevant to the pipeline.  `validationError`
stands for `ValueError` (the spec's `ValidationError`), `numericalError`
for `numpy.linalg.LinAlgError` (the spec's `NumericalError`),
`typeError` for `TypeError` and `nameError` for `NameError`. -/
inductive Err where
  | validationError
  | numericalError
  | typeError
  | nameError
deriving DecidableEq

/-- The `iddata` experiment container: measured output `y`, applied input
`u`, sampling period `ts` and initial conditions `y0`. -/
structure iddata where
  y : List ℚ
  u : List ℚ
  ts : ℚ
  y0 : List ℚ
deriving DecidableEq

/-- A discrete-time transfer function: numerator and denominator
coefficients (highest power first) and sampling period.  Models the
external `control.TransferFunction` / `scipy.signal.TransferFunction`
values the code manipulates. -/
structure TransferFunction where
  num : List ℚ
  den : List ℚ
  ts : ℚ
deriving DecidableEq

/-- Dynamically typed Python values, as far as the pipeline's
isinstance-based validation distinguishes them: a numeric scalar
(int/float/0-d array), a list, an `iddata` instance, or a transfer
function instance. -/
inductive PyVal where
  | num (q : ℚ)
  | list (xs : List PyVal)
  | idd (d : iddata)
  | tf (t : TransferFunction)

/-- Interpret a list of Python values as a list of numbers, if every
element is numeric. -/
def ratElems : List PyVal → Option (List ℚ)
  | [] => some []
  | PyVal.num q :: rest => (ratElems rest).map (fun l => q :: l)
  | _ :: _ => none

/-- Interpret a Python value as a numeric coefficient list. -/
def asRatList : PyVal → Option (List ℚ)
  | PyVal.list xs => ratElems xs
  | _ => none

/-- One-sided discrete convolution of a coefficient list `a` with a signal
`x` at time `k`; samples of `x` before time 0 are zero. -/
def convAt (a : List ℚ) (x : ℕ → ℚ) (k : ℕ) : ℚ :=
  ∑ i ∈ Finset.range a.length, if i ≤ k then a.getD i 0 * x (k - i) else 0

/-- One step of the recursive linear filter
`a₀ · out[k] = f k − ∑_{i≥1} aᵢ · out[k−i]`, where samples of the output
before time 0 are taken from the initial-condition list `ic`
(`out[-m] = ic[m-1]`).  `prev` is the list of already computed outputs. -/
def recStep (a ic : List ℚ) (f : ℕ → ℚ) (prev : List ℚ) : ℚ :=
  (f prev.length -
      ∑ i ∈ Finset.range (a.length - 1),
        (if i + 1 ≤ prev.length then
            a.getD (i + 1) 0 * prev.getD (prev.length - (i + 1)) 0
          else a.getD (i + 1) 0 * ic.getD (i - prev.length) 0)) /
    a.headD 0

/-- The list of the first `k` outputs of the recursive filter. -/
def recHist (a ic : List ℚ) (f : ℕ → ℚ) : ℕ → List ℚ
  | 0 => []
  | k + 1 => recHist a ic f k ++ [recStep a ic f (recHist a ic f k)]

/-- The output of the recursive linear filter at time `k`. -/
def recFilter (a ic : List ℚ) (f : ℕ → ℚ) (k : ℕ) : ℚ :=
  (recHist a ic f (k + 1)).getD k 0

/-- Forward simulation of the difference equation
`∑ i den_i · y[k-i] = ∑ j num_j · u[k-j]` with zero initial conditions:
the semantics of the external discrete-time simulator (`scipy.signal.dlsim`)
on a transfer function whose numerator has already been aligned to the
denominator's length. -/
def lsim (num den : List ℚ) (u : ℕ → ℚ) : ℕ → ℚ :=
  recFilter den [] (fun k => convAt num u k)

/-- Modelled from the spec: `virtual_reference` (§4.2, exposed by
`vrft/reference.py`, which is not among the sources; only its tests in
`src/test/test_reference.py` are).  It validates that `data` is an
`iddata` with consistent lengths and positive sampling period, that the
numerator/denominator arguments are numeric coefficient lists describing a
proper, non-constant system, and that the initial-condition vector's
length equals the degree offset left after aligning the numerator to the
denominator's length; then it inverts the model by swapping numerator and
denominator roles and simulates the inverted system driven by `y`,
recovering the reference sample by sample. -/
def virtual_reference (data numArg denArg : PyVal) : Except Err (List ℚ) :=
  match data with
  | PyVal.idd d =>
    if d.y.length = d.u.length ∧ 0 < d.ts then
      match asRatList numArg, asRatList denArg with
      | some num, some den =>
        if 1 ≤ num.length ∧ 1 ≤ den.length then
          if num.length ≤ 1 ∧ den.length ≤ 1 then Except.error Err.validationError
          else if den.length < num.length then Except.error Err.validationError
          else if d.y0.length ≠ den.length - num.length then Except.error Err.validationError
          else
            Except.ok (List.ofFn fun j : Fin (d.y.length - (den.length - num.length)) =>
              recFilter num d.y0
                (fun j' => convAt den (fun k => d.y.getD k 0) (j' + (den.length - num.length))) j)
        else Except.error Err.validationError
      | _, _ => Except.error Err.validationError
    else Except.error Err.validationError
  | _ => Except.error Err.validationError

/-- Whether a Python value is a `control.TransferFunction` instance. -/
def isTF : PyVal → Bool
  | PyVal.tf _ => true
  | _ => false

/-- The validation stage of `vrftAlgorithm` (`src/vrft/vrft/vrft_algo.py`,
lines 35-46): `data` must be an `iddata` instance, `referenceModel` a
`TransferFunction` instance, `base` a `list`, and every element of `base`
a `TransferFunction` instance; each failure raises `ValueError`.  The
element loop `for i in range(len(base))` accepts an empty list. -/
def vrftValidate (data referenceModel base : PyVal) : Except Err Unit :=
  match data with
  | PyVal.idd _ =>
    match referenceModel with
    | PyVal.tf _ =>
      match base with
      | PyVal.list xs =>
          if xs.all isTF then Except.ok () else Except.error Err.validationError
      | _ => Except.error Err.validationError
    | _ => Except.error Err.validationError
  | _ => Except.error Err.validationError

/-- Determinant of a rational matrix by Laplace expansion along the first
row; agrees with Mathlib's `Matrix.det` (see `detL_eq`) but reduces in the
kernel. -/
def detL : (n : ℕ) → Matrix (Fin n) (Fin n) ℚ → ℚ
  | 0, _ => 1
  | n + 1, A =>
      ∑ j : Fin (n + 1),
        (-1) ^ (j : ℕ) * A 0 j * detL n (A.submatrix Fin.succ j.succAbove)

/-- Adjugate of a rational matrix, computed via `detL`; agrees with
Mathlib's `Matrix.adjugate` (see `adjL_eq`). -/
def adjL {k : ℕ} (A : Matrix (Fin k) (Fin k) ℚ) : Matrix (Fin k) (Fin k) ℚ :=
  Matrix.of fun i j => detL k (A.transpose.updateColumn j (Pi.single i 1))

/-- Computable nonsingular inverse of a rational matrix, `det⁻¹ • adjugate`;
it agrees with Mathlib's `Matrix.inv` on invertible matrices. -/
def matInv {k : ℕ} (A : Matrix (Fin k) (Fin k) ℚ) : Matrix (Fin k) (Fin k) ℚ :=
  (detL k A)⁻¹ • adjL A

/-- `calcMinimum` (`src/vrft/vrft/vrft_algo.py`, lines 10-17): the
least-squares step `theta = inv(phi * phi.T) * phi; theta = dot(theta, u)`
on the regressor matrix `phi` and the recorded input `u` (the field
`data.u` of the `iddata` argument).  `numpy.linalg.inv` raises
`LinAlgError` exactly when its argument is singular, i.e. when
`det (phi * phiᵀ) = 0` in exact arithmetic. -/
def calcMinimum {k N : ℕ} (phi : Matrix (Fin k) (Fin N) ℚ) (u : Fin N → ℚ) :
    Except Err (Fin k → ℚ) :=
  if detL k (phi * phi.transpose) = 0 then Except.error Err.numericalError
  else Except.ok ((matInv (phi * phi.transpose) * phi).mulVec u)

/-- The squared residual `‖phiᵀ · theta − u‖²` minimized by the
least-squares estimator. -/
def residSq {k N : ℕ} (phi : Matrix (Fin k) (Fin N) ℚ) (u : Fin N → ℚ)
    (theta : Fin k → ℚ) : ℚ :=
  ∑ j, (phi.transpose.mulVec theta j - u j) ^ 2

/-- `calcControllerReponse` (`src/vrft/vrft/vrft_algo.py`, lines 19-32).
The body first builds the time grid
`t = np.arange(0, len(data.y), data.ts)` (which has `⌈len(y)/ts⌉`
samples, not `len(y)`) and then executes
`phi = np.zeros(len(base), len(t))`: the second positional argument of
`numpy.zeros` is the `dtype`, and an integer is not a valid dtype, so this
call raises `TypeError` on every invocation, before any basis system is
simulated. -/
def calcControllerReponse (_base : List TransferFunction) (_err : List ℚ)
    (_data : iddata) : Except Err (List (List ℚ)) :=
  Except.error Err.typeError

/-- `vrftAlgorithm` (`src/vrft/vrft/vrft_algo.py`, lines 34-56).  After the
validation stage it computes the virtual reference
(`r = reference(num, den, data)`, modelled by the engine above since
`vrft/vrft/reference.py` is not among the sources), subtracts
`e = r - data.y` (a NumPy broadcast, which raises `ValueError` when the
lengths differ), and then calls `calcControllerResponse(base, e, data)` —
a name the module never defines (the definition is spelled
`calcControllerReponse`), so the lookup raises `NameError`; the synthesis
step `calcFinalController` (declared on line 8 with no body) is never
reached. -/
def vrftAlgorithm (data referenceModel base : PyVal) : Except Err PyVal :=
  match vrftValidate data referenceModel base with
  | Except.error e => Except.error e
  | Except.ok _ =>
    match referenceModel with
    | PyVal.tf t =>
      match virtual_reference data (PyVal.list (t.num.map PyVal.num))
          (PyVal.list (t.den.map PyVal.num)) with
      | Except.error e => Except.error e
      | Except.ok r =>
        match data with
        | PyVal.idd d =>
          if r.length = d.y.length then
            -- e = r - data.y succeeds; phi = calcControllerResponse(...) raises NameError
            Except.error Err.nameError
          else Except.error Err.validationError
        | _ => Except.error Err.validationError
    | _ => Except.error Err.validationError

/-- Simulation of a transfer function on a finite input signal: the
numerator is aligned to the denominator's length by leading zeros and the
difference equation is run with zero initial state, producing one output
sample per input sample (the external simulator's contract, §6). -/
def lsimSys (t : TransferFunction) (x : List ℚ) : List ℚ :=
  List.ofFn fun i : Fin x.length =>
    lsim (List.replicate (t.den.length - t.num.length) 0 ++ t.num) t.den
      (fun k => x.getD k 0) i

/-- Modelled from the spec: `buildRegressor` (§4.3; the regressor builder
of the maintained `vrft/vrft_algo.py` is not among the sources).  Each
basis element is independently simulated against the error signal,
producing one row per basis element. -/
def buildRegressor (basisSet : List TransferFunction) (error : List ℚ) :
    List (List ℚ) :=
  basisSet.map fun b => lsimSys b error

/-- Modelled from the spec: `estimate` (§4.4; the estimator of the
maintained `vrft/vrft_algo.py` is not among the sources).  It solves the
least-squares problem for the regressor matrix and the recorded input,
reporting `NumericalError` on a singular cross-product; the returned
minimizer coincides with the normal-equations solution `calcMinimum`. -/
def estimate (phi : List (List ℚ)) (target : List ℚ) : Except Err (List ℚ) :=
  match calcMinimum
      (Matrix.of fun (i : Fin phi.length) (j : Fin target.length) =>
        (phi.getD i []).getD j 0)
      (fun j => target.get j) with
  | Except.error e => Except.error e
  | Except.ok theta => Except.ok (List.ofFn theta)

/-- Polynomial addition on coefficient lists (highest power first),
aligning the two lists at their low-order end. -/
def polyAdd (a b : List ℚ) : List ℚ :=
  (List.replicate (max a.length b.length - a.length) 0 ++ a).zipWith (· + ·)
    (List.replicate (max a.length b.length - b.length) 0 ++ b)

/-- Polynomial multiplication (convolution) on coefficient lists. -/
def polyMul : List ℚ → List ℚ → List ℚ
  | [], _ => []
  | x :: xs, b =>
      polyAdd (b.map (fun c => x * c) ++ List.replicate xs.length 0) (polyMul xs b)

/-- Scaling of a transfer function by a scalar gain. -/
def tfScale (c : ℚ) (t : TransferFunction) : TransferFunction :=
  { num := t.num.map (fun x => c * x), den := t.den, ts := t.ts }

/-- Addition of two transfer functions over a common denominator. -/
def tfAdd (t1 t2 : TransferFunction) : TransferFunction :=
  { num := polyAdd (polyMul t1.num t2.den) (polyMul t2.num t1.den)
    den := polyMul t1.den t2.den
    ts := t1.ts }

/-- Modelled from the spec: `synthesize` (§4.5; the synthesizer of the
maintained `vrft/vrft_algo.py` is not among the sources).  The controller
is the weighted sum `Σ theta[i] * basisSet[i]`; a length mismatch or an
empty basis raises `ValidationError`. -/
def synthesize (theta : List ℚ) (basisSet : List TransferFunction) :
    Except Err TransferFunction :=
  if h : theta.length = basisSet.length ∧ basisSet ≠ [] then
    Except.ok ((List.zipWith tfScale theta basisSet).foldl tfAdd
      { num := [0], den := [1], ts := (basisSet.head h.2).ts })
  else Except.error Err.validationError

/-- Application of the optional experiment-design filter to a signal:
identity when no filter is supplied. -/
def applyFilt (filt : Option TransferFunction) (x : List ℚ) : List ℚ :=
  match filt with
  | none => x
  | some L => lsimSys L x

/-- Interpret a list of Python values as transfer functions, if every
element is one. -/
def tfElems : List PyVal → Option (List TransferFunction)
  | [] => some []
  | PyVal.tf t :: rest => (tfElems rest).map (fun l => t :: l)
  | _ :: _ => none

/-- Modelled from the spec: the validation stage of `compute_vrft`
(§4.6 step 1): `data` must be an `iddata`, `referenceModel` a transfer
function, `basisSet` a non-empty list of transfer functions. -/
def specValidate (data referenceModel basisSet : PyVal) :
    Except Err (iddata × TransferFunction × List TransferFunction) :=
  match data, referenceModel, basisSet with
  | PyVal.idd d, PyVal.tf t, PyVal.list xs =>
    match tfElems xs with
    | some bs => if bs = [] then Except.error Err.validationError
                 else Except.ok (d, t, bs)
    | none => Except.error Err.validationError
  | _, _, _ => Except.error Err.validationError

/-- Modelled from the spec: `compute_vrft` (§4.6; exposed by the maintained
`vrft/vrft_algo.py`, which is not among the sources — only its caller
`src/examples/1_example.py` is).  Steps, in order: validate; compute the
virtual reference `r`; compute the raw error `e = r - data.y` aligned to
matching length; filter `e` and `data.u` through the design filter when
one is provided; build the regressor; estimate `theta`; synthesize the
controller; return all intermediate artifacts. -/
def compute_vrft (data referenceModel basisSet : PyVal)
    (designFilter : Option TransferFunction) :
    Except Err (List ℚ × List ℚ × List (List ℚ) × List ℚ × TransferFunction) :=
  match specValidate data referenceModel basisSet with
  | Except.error e => Except.error e
  | Except.ok (d, t, bs) =>
    match virtual_reference data (PyVal.list (t.num.map PyVal.num))
        (PyVal.list (t.den.map PyVal.num)) with
    | Except.error e => Except.error e
    | Except.ok r =>
      let e := List.zipWith (· - ·) r d.y
      let fe := applyFilt designFilter e
      let fu := applyFilt designFilter (d.u.take e.length)
      let phi := buildRegressor bs fe
      match estimate phi fu with
      | Except.error er => Except.error er
      | Except.ok theta =>
        match synthesize theta bs with
        | Except.error er => Except.error er
        | Except.ok C => Except.ok (theta, r, phi, fe, C)

theorem getD_replicate_zero (n i : ℕ) : (List.replicate n (0 : ℚ)).getD i 0 = 0 := by
  induction n generalizing i with
  | zero => simp [List.getD]
  | succ n ih =>
    cases i with
    | zero => rfl
    | succ i => rw [List.replicate_succ, List.getD_cons_succ]; exact ih i

theorem length_recHist (a ic : List ℚ) (f : ℕ → ℚ) (k : ℕ) :
    (recHist a ic f k).length = k := by
  induction k with
  | zero => rfl
  | succ k ih => simp [recHist, ih]

theorem recHist_getD (a ic : List ℚ) (f : ℕ → ℚ) :
    ∀ k j, j < k → (recHist a ic f k).getD j 0 = recFilter a ic f j := by
  intro k
  induction k with
  | zero => intro j hj; omega
  | succ k ih =>
    intro j hj
    by_cases h : j < k
    · show (recHist a ic f k ++ [recStep a ic f (recHist a ic f k)]).getD j 0 = _
      rw [List.getD_append _ _ _ _ (by rw [length_recHist]; exact h)]
      exact ih j h
    · have hjk : j = k := by omega
      subst hjk
      rfl

/-- The recursive filter satisfies its defining difference equation. -/
theorem recFilter_eq (a ic : List ℚ) (f : ℕ → ℚ) (k : ℕ) :
    recFilter a ic f k =
      (f k - ∑ i ∈ Finset.range (a.length - 1),
          (if i + 1 ≤ k then a.getD (i + 1) 0 * recFilter a ic f (k - (i + 1))
           else a.getD (i + 1) 0 * ic.getD (i - k) 0)) / a.headD 0 := by
  have h1 : recFilter a ic f k = recStep a ic f (recHist a ic f k) := by
    show (recHist a ic f k ++ [recStep a ic f (recHist a ic f k)]).getD k 0 = _
    rw [List.getD_append_right _ _ _ _ (by rw [length_recHist])]
    rw [length_recHist]
    simp
  rw [h1]
  unfold recStep
  rw [length_recHist]
  congr 1
  congr 1
  refine Finset.sum_congr rfl fun i _ => ?_
  by_cases hik : i + 1 ≤ k
  · rw [if_pos hik, if_pos hik, recHist_getD a ic f k (k - (i + 1)) (by omega)]
  · rw [if_neg hik, if_neg hik]

/-- The filter output at time `k` only depends on the drive at times `≤ k`. -/
theorem recFilter_congr (a ic : List ℚ) (f g : ℕ → ℚ) :
    ∀ k, (∀ m, m ≤ k → f m = g m) → recFilter a ic f k = recFilter a ic g k := by
  intro k
  induction k using Nat.strong_induction_on with
  | _ k ih =>
    intro h
    rw [recFilter_eq a ic f, recFilter_eq a ic g, h k le_rfl]
    have hs : (∑ i ∈ Finset.range (a.length - 1),
          (if i + 1 ≤ k then a.getD (i + 1) 0 * recFilter a ic f (k - (i + 1))
           else a.getD (i + 1) 0 * ic.getD (i - k) 0)) =
        ∑ i ∈ Finset.range (a.length - 1),
          (if i + 1 ≤ k then a.getD (i + 1) 0 * recFilter a ic g (k - (i + 1))
           else a.getD (i + 1) 0 * ic.getD (i - k) 0) := by
      refine Finset.sum_congr rfl fun i _ => ?_
      by_cases hik : i + 1 ≤ k
      · rw [if_pos hik, if_pos hik,
          ih (k - (i + 1)) (by omega) (fun m hm => h m (by omega))]
      · rw [if_neg hik, if_neg hik]
    rw [hs]

/-- Convolving the filter's coefficient list with the filter's output
recovers the drive, provided the leading coefficient is nonzero and the
initial conditions are zero. -/
theorem convAt_recFilter (a ic : List ℚ) (f : ℕ → ℚ) (ha : a.headD 0 ≠ 0)
    (hic : ∀ m, ic.getD m 0 = 0) (k : ℕ) :
    convAt a (recFilter a ic f) k = f k := by
  obtain ⟨a0, as, rfl⟩ : ∃ a0 as, a = a0 :: as := by
    cases a with
    | nil => simp at ha
    | cons a0 as => exact ⟨a0, as, rfl⟩
  have ha0 : a0 ≠ 0 := by simpa using ha
  unfold convAt
  rw [List.length_cons, Finset.sum_range_succ']
  have hzero : (if 0 ≤ k then (a0 :: as).getD 0 0 * recFilter (a0 :: as) ic f (k - 0) else 0) =
      a0 * recFilter (a0 :: as) ic f k := by simp
  rw [hzero, recFilter_eq]
  have hhead : (a0 :: as).headD 0 = a0 := rfl
  have hlen : (a0 :: as).length - 1 = as.length := by simp
  rw [hhead, hlen, mul_div_cancel₀ _ ha0]
  have hs : (∑ i ∈ Finset.range as.length,
        (if i + 1 ≤ k then (a0 :: as).getD (i + 1) 0 * recFilter (a0 :: as) ic f (k - (i + 1))
         else (a0 :: as).getD (i + 1) 0 * ic.getD (i - k) 0)) =
      ∑ i ∈ Finset.range as.length,
        (if i + 1 ≤ k then (a0 :: as).getD (i + 1) 0 * recFilter (a0 :: as) ic f (k - (i + 1))
         else 0) := by
    refine Finset.sum_congr rfl fun i _ => ?_
    by_cases hik : i + 1 ≤ k
    · rw [if_pos hik, if_pos hik]
    · rw [if_neg hik, if_neg hik, hic, mul_zero]
  rw [hs]
  ring

/-- The convolution at time `k` only depends on the signal at times `≤ k`. -/
theorem convAt_congr (a : List ℚ) (x y : ℕ → ℚ) (k : ℕ)
    (h : ∀ m, m ≤ k → x m = y m) : convAt a x k = convAt a y k := by
  unfold convAt
  refine Finset.sum_congr rfl fun i _ => ?_
  by_cases hik : i ≤ k
  · rw [if_pos hik, if_pos hik, h (k - i) (by omega)]
  · rw [if_neg hik, if_neg hik]

/-- Splitting the aligned numerator's convolution with the input into the
zero-padding part and the original coefficients. -/
theorem convAt_aligned (num : List ℚ) (L : ℕ) (u : ℕ → ℚ) (j : ℕ) :
    convAt (List.replicate L 0 ++ num) u (j + L) =
      (∑ i ∈ Finset.range (num.length - 1),
        (if i + 1 ≤ j then num.getD (i + 1) 0 * u (j - (i + 1)) else 0)) +
      num.getD 0 0 * u j := by
  unfold convAt
  have hAlen : (List.replicate L 0 ++ num).length = L + num.length := by simp
  rw [hAlen, Finset.sum_range_add]
  have h1 : (∑ i ∈ Finset.range L,
      (if i ≤ j + L then (List.replicate L 0 ++ num).getD i 0 * u (j + L - i) else 0)) = 0 := by
    refine Finset.sum_eq_zero fun i hi => ?_
    have hiL : i < L := Finset.mem_range.mp hi
    have hz : (List.replicate L 0 ++ num).getD i 0 = 0 := by
      rw [List.getD_append _ _ _ _ (by simpa using hiL), getD_replicate_zero]
    rw [hz]
    by_cases hik : i ≤ j + L
    · rw [if_pos hik, zero_mul]
    · rw [if_neg hik]
  have h2 : (∑ i ∈ Finset.range num.length,
        (if L + i ≤ j + L then (List.replicate L 0 ++ num).getD (L + i) 0 * u (j + L - (L + i))
         else 0)) =
      ∑ i ∈ Finset.range num.length,
        (if i ≤ j then num.getD i 0 * u (j - i) else 0) := by
    refine Finset.sum_congr rfl fun i _ => ?_
    have hget : (List.replicate L 0 ++ num).getD (L + i) 0 = num.getD i 0 := by
      rw [List.getD_append_right _ _ _ _ (by simp)]
      congr 1
      simp
    have harg : j + L - (L + i) = j - i := by omega
    rw [hget, harg]
    by_cases hij : i ≤ j
    · rw [if_pos (by omega : L + i ≤ j + L), if_pos hij]
    · rw [if_neg (by omega : ¬L + i ≤ j + L), if_neg hij]
  rw [h1, h2, zero_add]
  cases num with
  | nil => simp
  | cons n0 ns =>
    rw [List.length_cons, Finset.sum_range_succ', Nat.add_sub_cancel]
    simp

/-- Round trip of the virtual-reference deconvolution: if `y` is the
forward simulation of the model `num/den` (numerator aligned by leading
zeros, as the external simulator does) on the input `u` with zero initial
conditions, then inverting the model against `y` recovers `u` sample by
sample, for any proper model whose leading numerator and denominator
coefficients are nonzero. -/
theorem deconv_round_trip (num den : List ℚ) (u : ℕ → ℚ) (ic : List ℚ)
    (hden : den.headD 0 ≠ 0) (hnum : num.headD 0 ≠ 0)
    (hic : ∀ m, ic.getD m 0 = 0) :
    ∀ j, recFilter num ic
        (fun j' => convAt den
          (lsim (List.replicate (den.length - num.length) 0 ++ num) den u)
          (j' + (den.length - num.length))) j = u j := by
  intro j
  induction j using Nat.strong_induction_on with
  | _ j ih =>
    rw [recFilter_eq]
    have hdrive : convAt den
        (lsim (List.replicate (den.length - num.length) 0 ++ num) den u)
        (j + (den.length - num.length)) =
        convAt (List.replicate (den.length - num.length) 0 ++ num) u
          (j + (den.length - num.length)) := by
      unfold lsim
      exact convAt_recFilter den []
        (fun k => convAt (List.replicate (den.length - num.length) 0 ++ num) u k)
        hden (fun m => List.getD_nil) _
    rw [hdrive, convAt_aligned]
    have hhead : num.getD 0 0 = num.headD 0 := by
      cases num with
      | nil => rfl
      | cons n0 ns => rfl
    have hS : (∑ i ∈ Finset.range (num.length - 1),
          (if i + 1 ≤ j then
              num.getD (i + 1) 0 *
                recFilter num ic
                  (fun j' => convAt den
                    (lsim (List.replicate (den.length - num.length) 0 ++ num) den u)
                    (j' + (den.length - num.length))) (j - (i + 1))
           else num.getD (i + 1) 0 * ic.getD (i - j) 0)) =
        ∑ i ∈ Finset.range (num.length - 1),
          (if i + 1 ≤ j then num.getD (i + 1) 0 * u (j - (i + 1)) else 0) := by
      refine Finset.sum_congr rfl fun i _ => ?_
      by_cases hik : i + 1 ≤ j
      · rw [if_pos hik, if_pos hik, ih (j - (i + 1)) (by omega)]
      · rw [if_neg hik, if_neg hik, hic, mul_zero]
    rw [hS, hhead]
    have hcancel : (∑ i ∈ Finset.range (num.length - 1),
          (if i + 1 ≤ j then num.getD (i + 1) 0 * u (j - (i + 1)) else 0)) +
        num.headD 0 * u j -
        (∑ i ∈ Finset.range (num.length - 1),
          (if i + 1 ≤ j then num.getD (i + 1) 0 * u (j - (i + 1)) else 0)) =
        num.headD 0 * u j := by ring
    rw [hcancel, mul_div_cancel_left₀ _ hnum]

theorem ratElems_map (xs : List ℚ) : ratElems (xs.map PyVal.num) = some xs := by
  induction xs with
  | nil => rfl
  | cons x xs ih => simp [ratElems, ih]

theorem getD_ofFn_lt {n : ℕ} (g : Fin n → ℚ) (k : ℕ) (h : k < n) :
    (List.ofFn g).getD k 0 = g ⟨k, h⟩ := by
  rw [List.getD_eq_getElem _ _ (by simpa using h)]
  exact List.getElem_ofFn g k (by simpa using h)

theorem length_pos_of_headD_ne (a : List ℚ) (h : a.headD 0 ≠ 0) : 1 ≤ a.length := by
  cases a with
  | nil => simp at h
  | cons x xs => simp

/-- C1.  Round-trip property: for every proper system of order at least 1
with coefficients `(num, den)` whose leading coefficients are nonzero,
every input sequence `u`, every sample count `N` and every positive
sampling period, if `y` is the forward simulation of `(num, den)` on `u`
with zero initial conditions, then `virtual_reference` on `data(y, u)`
with `num, den` succeeds and returns a reference `r` with `r[j] = u[j]`
(exactly, in the rational-arithmetic embedding) at every computed
sample `j`. -/
theorem c1_round_trip (num den : List ℚ) (u : ℕ → ℚ) (N : ℕ) (ts : ℚ)
    (hden : den.headD 0 ≠ 0) (hnum : num.headD 0 ≠ 0)
    (horder : 2 ≤ den.length) (hproper : num.length ≤ den.length)
    (hts : 0 < ts) :
    ∃ r : List ℚ,
      virtual_reference
        (PyVal.idd
          { y := List.ofFn fun k : Fin N =>
              lsim (List.replicate (den.length - num.length) 0 ++ num) den u k
            u := List.ofFn fun k : Fin N => u k
            ts := ts
            y0 := List.replicate (den.length - num.length) 0 })
        (PyVal.list (num.map PyVal.num)) (PyVal.list (den.map PyVal.num)) =
        Except.ok r ∧
      r.length = N - (den.length - num.length) ∧
      ∀ j (hj : j < r.length), r.get ⟨j, hj⟩ = u j := by
  have hnum1 : 1 ≤ num.length := length_pos_of_headD_ne num hnum
  unfold virtual_reference
  simp only [asRatList, ratElems_map]
  rw [if_pos (by constructor <;> simp [hts])]
  rw [if_pos ⟨hnum1, by omega⟩]
  rw [if_neg (by omega)]
  rw [if_neg (by omega)]
  rw [if_neg (by simp)]
  refine ⟨_, rfl, by simp, ?_⟩
  intro j hj
  have hjN : j < N - (den.length - num.length) := by
    simpa using hj
  rw [List.get_ofFn]
  simp only [Fin.cast, Fin.val_mk]
  have hcg : recFilter num (List.replicate (den.length - num.length) 0)
      (fun j' => convAt den
        (fun k => (List.ofFn fun k' : Fin N =>
          lsim (List.replicate (den.length - num.length) 0 ++ num) den u k').getD k 0)
        (j' + (den.length - num.length))) j =
      recFilter num (List.replicate (den.length - num.length) 0)
        (fun j' => convAt den
          (lsim (List.replicate (den.length - num.length) 0 ++ num) den u)
          (j' + (den.length - num.length))) j := by
    refine recFilter_congr _ _ _ _ j fun m hm => ?_
    refine convAt_congr den _ _ _ fun k hk => ?_
    have hkN : k < N := by omega
    exact getD_ofFn_lt _ k hkN
  exact hcg.trans
    (deconv_round_trip num den u (List.replicate (den.length - num.length) 0)
      hden hnum (getD_replicate_zero _) j)

/-- Witness for C1: the spec's concrete first-order scenario
`num = [0.1]`, `den = [1, -0.9]`, step input, `ts = 0.01`, zero initial
condition, over three samples. -/
theorem c1_round_trip_witness :
    (0 : ℚ) < 1 / 100 ∧
    ∃ r : List ℚ,
      virtual_reference
        (PyVal.idd
          { y := List.ofFn fun k : Fin 3 =>
              lsim (List.replicate 1 0 ++ [(1 : ℚ) / 10]) [(1 : ℚ), -9 / 10]
                (fun _ => 1) k
            u := List.ofFn fun _ : Fin 3 => (1 : ℚ)
            ts := 1 / 100
            y0 := List.replicate 1 0 })
        (PyVal.list ([(1 : ℚ) / 10].map PyVal.num))
        (PyVal.list ([(1 : ℚ), -9 / 10].map PyVal.num)) =
        Except.ok r ∧
      r.length = 2 ∧
      ∀ j (hj : j < r.length), r.get ⟨j, hj⟩ = 1 :=
  ⟨by norm_num,
    c1_round_trip [(1 : ℚ) / 10] [(1 : ℚ), -9 / 10] (fun _ => 1) 3 (1 / 100)
      (by norm_num) (by norm_num) (by norm_num) (by norm_num) (by norm_num)⟩

theorem detL_eq : ∀ (n : ℕ) (A : Matrix (Fin n) (Fin n) ℚ), detL n A = A.det := by
  intro n
  induction n with
  | zero => intro A; rw [Matrix.det_fin_zero]; rfl
  | succ n ih =>
    intro A
    rw [Matrix.det_succ_row_zero]
    unfold detL
    refine Finset.sum_congr rfl fun j _ => ?_
    rw [ih]

theorem adjL_eq {k : ℕ} (A : Matrix (Fin k) (Fin k) ℚ) : adjL A = A.adjugate := by
  funext i j
  rw [Matrix.adjugate_def]
  show detL k (A.transpose.updateColumn j (Pi.single i 1)) =
    Matrix.cramer A.transpose (Pi.single i 1) j
  rw [Matrix.cramer_apply, detL_eq]

theorem matInv_eq {k : ℕ} (A : Matrix (Fin k) (Fin k) ℚ) : matInv A = A⁻¹ := by
  rw [Matrix.inv_def, Ring.inverse_eq_inv]
  unfold matInv
  rw [detL_eq, adjL_eq]

/-- Over the rationals, a matrix with linearly independent rows has a
nonsingular Gram matrix `phi * phiᵀ`. -/
theorem rowsLinIndep_det_ne {k N : ℕ} (phi : Matrix (Fin k) (Fin N) ℚ)
    (h : LinearIndependent ℚ (fun i => phi i)) : (phi * phi.transpose).det ≠ 0 := by
  intro hdet
  obtain ⟨v, hv0, hv⟩ := Matrix.exists_mulVec_eq_zero_iff.mpr hdet
  have hsum : Matrix.dotProduct (Matrix.vecMul v phi) (Matrix.vecMul v phi) = 0 := by
    have h2 : Matrix.dotProduct v ((phi * phi.transpose).mulVec v) = 0 := by
      rw [hv, Matrix.dotProduct_zero]
    rw [← Matrix.mulVec_mulVec, Matrix.dotProduct_mulVec, Matrix.mulVec_transpose] at h2
    exact h2
  have hw : ∀ m, Matrix.vecMul v phi m = 0 := by
    intro m
    have hnn : ∀ l ∈ Finset.univ,
        (0 : ℚ) ≤ Matrix.vecMul v phi l * Matrix.vecMul v phi l :=
      fun l _ => mul_self_nonneg _
    have := (Finset.sum_eq_zero_iff_of_nonneg hnn).mp hsum m (Finset.mem_univ m)
    exact mul_self_eq_zero.mp this
  have hcomb : (∑ i, v i • (fun i' => phi i') i) = 0 := by
    funext m
    have h3 : (∑ i, v i • phi i) m = ∑ i, v i * phi i m := by
      rw [Finset.sum_apply]
      refine Finset.sum_congr rfl fun i _ => rfl
    rw [h3]
    exact hw m
  have hall := Fintype.linearIndependent_iff.mp h v hcomb
  exact hv0 (funext hall)

/-- C4.  For every regressor matrix with linearly independent rows and
every target vector, `calcMinimum` succeeds and the returned `theta`
minimizes the squared residual `‖phiᵀ · theta − u‖²` over all parameter
vectors. -/
theorem c4_least_squares {k N : ℕ} (phi : Matrix (Fin k) (Fin N) ℚ) (u : Fin N → ℚ)
    (h : LinearIndependent ℚ (fun i => phi i)) :
    ∃ theta, calcMinimum phi u = Except.ok theta ∧
      ∀ theta', residSq phi u theta ≤ residSq phi u theta' := by
  have hdet : (phi * phi.transpose).det ≠ 0 := rowsLinIndep_det_ne phi h
  have hdetL : ¬detL k (phi * phi.transpose) = 0 := by
    rw [detL_eq]; exact hdet
  have hok : calcMinimum phi u =
      Except.ok ((matInv (phi * phi.transpose) * phi).mulVec u) := by
    unfold calcMinimum
    rw [if_neg hdetL]
  refine ⟨_, hok, ?_⟩
  intro theta'
  set θ := (matInv (phi * phi.transpose) * phi).mulVec u with hθdef
  have hGinv : phi * phi.transpose * matInv (phi * phi.transpose) = 1 := by
    rw [matInv_eq]
    exact Matrix.mul_nonsing_inv _ (isUnit_iff_ne_zero.mpr hdet)
  have hne : phi.mulVec (phi.transpose.mulVec θ) = phi.mulVec u := by
    rw [hθdef, Matrix.mulVec_mulVec, Matrix.mulVec_mulVec, ← Matrix.mul_assoc,
      hGinv, Matrix.one_mul]
  have hres0 : phi.mulVec (fun j => phi.transpose.mulVec θ j - u j) = 0 := by
    have hfun : (fun j => phi.transpose.mulVec θ j - u j) =
        phi.transpose.mulVec θ - u := rfl
    rw [hfun, Matrix.mulVec_sub, hne, sub_self]
  have hpoint : phi.transpose.mulVec theta' =
      phi.transpose.mulVec θ + phi.transpose.mulVec (theta' - θ) := by
    have harg : θ + (theta' - θ) = theta' := by
      funext i
      simp only [Pi.add_apply, Pi.sub_apply]
      ring
    rw [← Matrix.mulVec_add, harg]
  have hcross : (∑ j, (phi.transpose.mulVec θ j - u j) *
      phi.transpose.mulVec (theta' - θ) j) = 0 := by
    have h1 : (∑ j, (phi.transpose.mulVec θ j - u j) *
        phi.transpose.mulVec (theta' - θ) j) =
        Matrix.dotProduct (fun j => phi.transpose.mulVec θ j - u j)
          (phi.transpose.mulVec (theta' - θ)) := rfl
    rw [h1, Matrix.dotProduct_mulVec, Matrix.vecMul_transpose, hres0]
    exact Matrix.zero_dotProduct _
  unfold residSq
  have hexpand : (∑ j, (phi.transpose.mulVec theta' j - u j) ^ 2) =
      (∑ j, (phi.transpose.mulVec θ j - u j) ^ 2) +
        ∑ j, phi.transpose.mulVec (theta' - θ) j ^ 2 := by
    have hterm : ∀ j, (phi.transpose.mulVec theta' j - u j) ^ 2 =
        (phi.transpose.mulVec θ j - u j) ^ 2 +
          2 * ((phi.transpose.mulVec θ j - u j) * phi.transpose.mulVec (theta' - θ) j) +
          phi.transpose.mulVec (theta' - θ) j ^ 2 := by
      intro j
      have hj := congrFun hpoint j
      simp only [Pi.add_apply] at hj
      rw [hj]
      ring
    rw [Finset.sum_congr rfl fun j _ => hterm j, Finset.sum_add_distrib,
      Finset.sum_add_distrib, ← Finset.mul_sum, hcross, mul_zero, add_zero]
  rw [hexpand]
  exact le_add_of_nonneg_right (Finset.sum_nonneg fun j _ => sq_nonneg _)

/-- Witness for C4: a one-element basis, one-sample regressor. -/
theorem c4_least_squares_witness :
    ∃ theta, calcMinimum (!![(1 : ℚ)]) ![2] = Except.ok theta ∧
      ∀ theta', residSq (!![(1 : ℚ)]) ![2] theta ≤ residSq (!![(1 : ℚ)]) ![2] theta' :=
  c4_least_squares (!![(1 : ℚ)]) ![2]
    (linearIndependent_unique _ (by
      intro hcon
      have h1 := congrFun hcon 0
      norm_num at h1))

/-- C5.  For every regressor matrix whose rows are linearly dependent
over the observed excitation (identical rows being one instance), the
cross-product `phi * phiᵀ` is singular, so the least-squares step raises
`NumericalError` (`numpy.linalg.LinAlgError`) instead of silently
regularizing or returning a result. -/
theorem c5_singular {k N : ℕ} (phi : Matrix (Fin k) (Fin N) ℚ) (u : Fin N → ℚ)
    (h : ¬LinearIndependent ℚ (fun i => phi i)) :
    calcMinimum phi u = Except.error Err.numericalError := by
  have hdet : (phi * phi.transpose).det = 0 := by
    rw [← Matrix.exists_mulVec_eq_zero_iff]
    rw [Fintype.linearIndependent_iff] at h
    push_neg at h
    obtain ⟨g, hg, i, hgi⟩ := h
    refine ⟨g, ?_, ?_⟩
    · intro hg0
      exact hgi (by rw [hg0]; rfl)
    · have hvm : Matrix.vecMul g phi = 0 := by
        funext m
        have h2 := congrFun hg m
        rw [Finset.sum_apply] at h2
        simp only [Pi.smul_apply, smul_eq_mul, Pi.zero_apply] at h2
        show Matrix.dotProduct g (fun l => phi l m) = 0
        rw [Matrix.dotProduct]
        exact h2
      rw [← Matrix.mulVec_mulVec, Matrix.mulVec_transpose, hvm, Matrix.mulVec_zero]
  unfold calcMinimum
  rw [if_pos (by rw [detL_eq]; exact hdet)]

/-- Witness for C5: a 3×2 regressor whose rows `[1,0]`, `[0,1]`, `[1,1]`
are linearly dependent without any two being identical. -/
theorem c5_singular_witness :
    calcMinimum (!![(1 : ℚ), 0; 0, 1; 1, 1]) ![1, 1] =
      Except.error Err.numericalError :=
  c5_singular (!![(1 : ℚ), 0; 0, 1; 1, 1]) ![1, 1] (by
    intro hli
    have hsum : (∑ i, (![1, 1, -1] : Fin 3 → ℚ) i •
        (fun i' => (!![(1 : ℚ), 0; 0, 1; 1, 1]) i') i) = 0 := by
      funext m
      rw [Finset.sum_apply, Fin.sum_univ_three]
      fin_cases m <;> simp [Matrix.vecHead, Matrix.vecTail]
    have h1 := Fintype.linearIndependent_iff.mp hli ![1, 1, -1] hsum 0
    simp at h1)

/-- C3 (code bug).  `calcControllerReponse` never returns a `(k, N)`
matrix: the allocation `np.zeros(len(base), len(t))` passes `len(t)` as
the dtype argument, so every invocation raises `TypeError` — here for all
basis sets, error signals and data. -/
theorem c3_regressor_allocation (base : List TransferFunction) (err : List ℚ)
    (data : iddata) :
    calcControllerReponse base err data = Except.error Err.typeError := rfl

/-- C6 (amended).  The validation stage of `vrftAlgorithm` succeeds
exactly when `data` is an `iddata` instance, `referenceModel` is a
`TransferFunction` instance, and the basis argument is a list all of whose
elements are `TransferFunction` instances; every violation raises
`ValueError`.  An empty basis list satisfies the element check vacuously
and is accepted. -/
theorem c6_validation_types (data referenceModel base : PyVal) :
    vrftValidate data referenceModel base = Except.ok () ↔
      ((∃ d, data = PyVal.idd d) ∧ (∃ t, referenceModel = PyVal.tf t) ∧
        ∃ xs, base = PyVal.list xs ∧ xs.all isTF = true) := by
  constructor
  · intro h
    cases data with
    | num q => exact Except.noConfusion h
    | list xs => exact Except.noConfusion h
    | tf t => exact Except.noConfusion h
    | idd d =>
      cases referenceModel with
      | num q => exact Except.noConfusion h
      | list xs => exact Except.noConfusion h
      | idd d2 => exact Except.noConfusion h
      | tf t =>
        cases base with
        | num q => exact Except.noConfusion h
        | idd d2 => exact Except.noConfusion h
        | tf t2 => exact Except.noConfusion h
        | list xs =>
          refine ⟨⟨d, rfl⟩, ⟨t, rfl⟩, xs, rfl, ?_⟩
          by_cases hall : xs.all isTF
          · exact hall
          · exfalso
            have h' : (if xs.all isTF = true then (Except.ok () : Except Err Unit)
                else Except.error Err.validationError) = Except.ok () := h
            rw [if_neg hall] at h'
            exact Except.noConfusion h'
  · rintro ⟨⟨d, rfl⟩, ⟨t, rfl⟩, xs, rfl, hall⟩
    show (if xs.all isTF = true then (Except.ok () : Except Err Unit)
        else Except.error Err.validationError) = Except.ok ()
    rw [if_pos hall]

/-- Counterexample for C6: with an empty basis list and otherwise
well-typed arguments, the validation stage raises nothing, and the whole
`vrftAlgorithm` call fails later with `NameError`, not with the
`ValueError` the claim requires for an empty basis set. -/
theorem c6_empty_basis_cex :
    vrftValidate (PyVal.idd { y := [1, 1], u := [1, 1], ts := 1, y0 := [] })
        (PyVal.tf { num := [1, 0], den := [1, -1/2], ts := 1 }) (PyVal.list []) =
      Except.ok () ∧
    vrftAlgorithm (PyVal.idd { y := [1, 1], u := [1, 1], ts := 1, y0 := [] })
        (PyVal.tf { num := [1, 0], den := [1, -1/2], ts := 1 }) (PyVal.list []) =
      Except.error Err.nameError :=
  ⟨rfl, by with_unfolding_all rfl⟩

/-- C7.  For a well-formed, non-constant, proper model,
`virtual_reference` raises `ValidationError` exactly when the supplied
initial-condition vector's length differs from the degree offset
`len(den) - len(num)` left after aligning the numerator to the
denominator (and succeeds when the lengths agree). -/
theorem c7_ic_length (d : iddata) (num den : List ℚ)
    (hlen : d.y.length = d.u.length) (hts : 0 < d.ts)
    (hnum1 : 1 ≤ num.length) (hproper : num.length ≤ den.length)
    (horder : 2 ≤ den.length) :
    (d.y0.length ≠ den.length - num.length →
      virtual_reference (PyVal.idd d) (PyVal.list (num.map PyVal.num))
        (PyVal.list (den.map PyVal.num)) = Except.error Err.validationError) ∧
    (d.y0.length = den.length - num.length →
      ∃ r, virtual_reference (PyVal.idd d) (PyVal.list (num.map PyVal.num))
        (PyVal.list (den.map PyVal.num)) = Except.ok r) := by
  unfold virtual_reference
  simp only [asRatList, ratElems_map]
  rw [if_pos ⟨hlen, hts⟩, if_pos ⟨hnum1, by omega⟩, if_neg (by omega), if_neg (by omega)]
  constructor
  · intro hic
    rw [if_pos hic]
  · intro hic
    rw [if_neg (fun hc => hc hic)]
    exact ⟨_, rfl⟩

/-- Witness for C7: the claim's first-order system rejects a length-2
initial-condition vector and accepts length 1; the claim's fourth-order
system with a two-term numerator accepts length 3. -/
theorem c7_ic_length_witness :
    virtual_reference
        (PyVal.idd { y := [1, 1, 1], u := [1, 1, 1], ts := 1/100, y0 := [0, 0] })
        (PyVal.list ([(1 : ℚ)/10].map PyVal.num))
        (PyVal.list ([(1 : ℚ), -9/10].map PyVal.num)) =
      Except.error Err.validationError ∧
    (∃ r, virtual_reference
        (PyVal.idd { y := [1, 1, 1], u := [1, 1, 1], ts := 1/100, y0 := [0] })
        (PyVal.list ([(1 : ℚ)/10].map PyVal.num))
        (PyVal.list ([(1 : ℚ), -9/10].map PyVal.num)) = Except.ok r) ∧
    (∃ r, virtual_reference
        (PyVal.idd { y := [1, 1, 1], u := [1, 1, 1], ts := 1/100, y0 := [0, 0, 0] })
        (PyVal.list ([(28261 : ℚ)/100000, 50666/100000].map PyVal.num))
        (PyVal.list ([(1 : ℚ), -141833/100000, 158939/100000, -131608/100000,
          88642/100000].map PyVal.num)) = Except.ok r) :=
  ⟨(c7_ic_length _ _ _ rfl (by norm_num) (by norm_num) (by norm_num) (by norm_num)).1
      (by norm_num),
   (c7_ic_length _ _ _ rfl (by norm_num) (by norm_num) (by norm_num) (by norm_num)).2
      (by norm_num),
   (c7_ic_length _ _ _ rfl (by norm_num) (by norm_num) (by norm_num) (by norm_num)).2
      (by norm_num)⟩

/-- C8.  `virtual_reference` raises `ValidationError` for every degenerate
order-0 system (numerator and denominator both scalars) and for every
numerator or denominator argument that is not a numeric coefficient list,
whatever the data argument is. -/
theorem c8_degenerate (data numArg denArg : PyVal)
    (h : (∃ c q : ℚ, numArg = PyVal.list [PyVal.num c] ∧
        denArg = PyVal.list [PyVal.num q]) ∨
      asRatList numArg = none ∨ asRatList denArg = none) :
    virtual_reference data numArg denArg = Except.error Err.validationError := by
  cases data with
  | num q0 => rfl
  | list xs => rfl
  | tf t => rfl
  | idd d =>
    by_cases hdd : d.y.length = d.u.length ∧ 0 < d.ts
    case neg => simp only [virtual_reference, if_neg hdd]
    case pos =>
      rcases h with ⟨c, q, hn, hq⟩ | hn | hn
      · subst hn; subst hq
        simp only [virtual_reference, if_pos hdd, asRatList, ratElems, Option.map]
        norm_num
      · cases hq : asRatList denArg with
        | none => simp only [virtual_reference, if_pos hdd, hn, hq]
        | some l => simp only [virtual_reference, if_pos hdd, hn, hq]
      · cases hm : asRatList numArg with
        | none => simp only [virtual_reference, if_pos hdd, hm, hn]
        | some l => simp only [virtual_reference, if_pos hdd, hm, hn]

/-- Witness for C8: non-list arguments are rejected for non-`iddata`
data, and a constant-gain (order-0) system is rejected for valid data. -/
theorem c8_degenerate_witness :
    virtual_reference (PyVal.num 1) (PyVal.num 1) (PyVal.num 0) =
      Except.error Err.validationError ∧
    virtual_reference (PyVal.idd { y := [1], u := [1], ts := 1, y0 := [] })
        (PyVal.list [PyVal.num 1]) (PyVal.list [PyVal.num 1]) =
      Except.error Err.validationError :=
  ⟨c8_degenerate _ _ _ (Or.inr (Or.inl rfl)),
   c8_degenerate _ _ _ (Or.inl ⟨1, 1, rfl, rfl⟩)⟩

/-- C9.  `vrftAlgorithm` never returns a controller: every invocation
results in an exception — a `ValueError` from validation, an error from
the virtual-reference step or from the error broadcast, or the
`NameError` raised when the undefined name `calcControllerResponse` is
looked up (the only definition is spelled `calcControllerReponse`, and
the bodyless `calcFinalController` synthesis is never reached). -/
theorem c9_never_returns (data referenceModel base : PyVal) :
    ∃ e, vrftAlgorithm data referenceModel base = Except.error e := by
  cases hval : vrftValidate data referenceModel base with
  | error e => exact ⟨e, by simp only [vrftAlgorithm, hval]⟩
  | ok v =>
    cases referenceModel with
    | num q => exact ⟨Err.validationError, by simp only [vrftAlgorithm, hval]⟩
    | list xs => exact ⟨Err.validationError, by simp only [vrftAlgorithm, hval]⟩
    | idd d => exact ⟨Err.validationError, by simp only [vrftAlgorithm, hval]⟩
    | tf t =>
      cases hr : virtual_reference data (PyVal.list (t.num.map PyVal.num))
          (PyVal.list (t.den.map PyVal.num)) with
      | error e => exact ⟨e, by simp only [vrftAlgorithm, hval, hr]⟩
      | ok r =>
        cases data with
        | num q => exact ⟨Err.validationError, by simp only [vrftAlgorithm, hval, hr]⟩
        | list xs => exact ⟨Err.validationError, by simp only [vrftAlgorithm, hval, hr]⟩
        | tf t2 => exact ⟨Err.validationError, by simp only [vrftAlgorithm, hval, hr]⟩
        | idd d =>
          by_cases hlen : r.length = d.y.length
          · exact ⟨Err.nameError, by
              simp only [vrftAlgorithm, hval, hr]
              rw [if_pos hlen]⟩
          · exact ⟨Err.validationError, by
              simp only [vrftAlgorithm, hval, hr]
              rw [if_neg hlen]⟩

/-- C10.  The orchestrator's validation stage inspects only the runtime
types of its arguments: any `iddata`, any reference `TransferFunction`
and any list of `TransferFunction`s are accepted for all numeric
contents — in particular a reference model or basis element whose
sampling period `ts'` differs from the experiment's `ts` passes
validation without any error. -/
theorem c10_type_only_validation (y u y0 : List ℚ) (ts : ℚ)
    (num den : List ℚ) (ts' : ℚ) (bs : List TransferFunction) :
    vrftValidate (PyVal.idd { y := y, u := u, ts := ts, y0 := y0 })
      (PyVal.tf { num := num, den := den, ts := ts' })
      (PyVal.list (bs.map PyVal.tf)) = Except.ok () := by
  have hall : (bs.map PyVal.tf).all isTF = true := by
    rw [List.all_eq_true]
    intro x hx
    obtain ⟨t, -, rfl⟩ := List.mem_map.mp hx
    rfl
  show (if (bs.map PyVal.tf).all isTF = true then (Except.ok () : Except Err Unit)
      else Except.error Err.validationError) = Except.ok ()
  rw [if_pos hall]

theorem tfElems_map (bs : List TransferFunction) :
    tfElems (bs.map PyVal.tf) = some bs := by
  induction bs with
  | nil => rfl
  | cons b bs ih => simp [tfElems, ih]

theorem estimate_length (phi : List (List ℚ)) (target : List ℚ) (th : List ℚ)
    (h : estimate phi target = Except.ok th) : th.length = phi.length := by
  cases hcm : calcMinimum
      (Matrix.of fun (i : Fin phi.length) (j : Fin target.length) =>
        (phi.getD (i : ℕ) []).getD (j : ℕ) 0)
      (fun j => target.get j) with
  | error e =>
    simp only [estimate, hcm] at h
    exact Except.noConfusion h
  | ok v =>
    simp only [estimate, hcm] at h
    injection h with h2
    rw [← h2, List.length_ofFn]

/-- C2.  For every valid input (an `iddata`, a transfer-function reference
model and a non-empty list of transfer-function basis elements) on which
the virtual-reference and estimation stages succeed, `compute_vrft`
executes the pipeline in the spec's order and returns the five-tuple
`(theta, virtualReference, regressorMatrix, filteredError, controller)`:
the raw error is `e = r - data.y`, the design filter is applied to both
`e` and `data.u` to form the estimation signals (and with no filter the
filtered signals equal the unfiltered ones), the regressor is built from
the filtered error, `theta` is estimated against the filtered input, and
the controller is synthesized from `theta` and the basis. -/
theorem c2_pipeline (d : iddata) (t : TransferFunction)
    (bs : List TransferFunction) (filt : Option TransferFunction)
    (hbs : bs ≠ []) (r theta : List ℚ)
    (hr : virtual_reference (PyVal.idd d) (PyVal.list (t.num.map PyVal.num))
      (PyVal.list (t.den.map PyVal.num)) = Except.ok r)
    (hth : estimate
      (buildRegressor bs (applyFilt filt (List.zipWith (· - ·) r d.y)))
      (applyFilt filt (d.u.take (List.zipWith (· - ·) r d.y).length)) =
      Except.ok theta) :
    ∃ C, synthesize theta bs = Except.ok C ∧
      compute_vrft (PyVal.idd d) (PyVal.tf t) (PyVal.list (bs.map PyVal.tf)) filt =
        Except.ok (theta, r,
          buildRegressor bs (applyFilt filt (List.zipWith (· - ·) r d.y)),
          applyFilt filt (List.zipWith (· - ·) r d.y), C) ∧
      (∀ x : List ℚ, applyFilt none x = x) := by
  have hval : specValidate (PyVal.idd d) (PyVal.tf t)
      (PyVal.list (bs.map PyVal.tf)) = Except.ok (d, t, bs) := by
    simp only [specValidate, tfElems_map]
    rw [if_neg hbs]
  have hthlen : theta.length = bs.length := by
    have h1 := estimate_length _ _ _ hth
    rw [h1]
    simp [buildRegressor]
  have hsyn : synthesize theta bs = Except.ok
      ((List.zipWith tfScale theta bs).foldl tfAdd
        { num := [0], den := [1], ts := (bs.head hbs).ts }) := by
    unfold synthesize
    rw [dif_pos (⟨hthlen, hbs⟩ : theta.length = bs.length ∧ bs ≠ [])]
  refine ⟨_, hsyn, ?_, fun x => rfl⟩
  simp only [compute_vrft, hval, hr, hth, hsyn]

/-- Witness for C2: a complete concrete pipeline run with two samples,
one basis element and no design filter. -/
theorem c2_pipeline_witness :
    ∃ C, synthesize [-2] [{ num := [1], den := [1], ts := 1 }] = Except.ok C ∧
      compute_vrft
        (PyVal.idd { y := [1, 1], u := [1, 1], ts := 1, y0 := [] })
        (PyVal.tf { num := [1, 0], den := [1, -1/2], ts := 1 })
        (PyVal.list ([{ num := [1], den := [1], ts := 1 }].map PyVal.tf)) none =
      Except.ok ([-2], [1, 1/2],
        buildRegressor [{ num := [1], den := [1], ts := 1 }]
          (applyFilt none (List.zipWith (· - ·) [1, 1/2] [1, 1])),
        applyFilt none (List.zipWith (· - ·) [1, 1/2] [1, 1]), C) ∧
      (∀ x : List ℚ, applyFilt none x = x) :=
  c2_pipeline { y := [1, 1], u := [1, 1], ts := 1, y0 := [] }
    { num := [1, 0], den := [1, -1/2], ts := 1 }
    [{ num := [1], den := [1], ts := 1 }] none (List.cons_ne_nil _ _)
    [1, 1/2] [-2] (by with_unfolding_all rfl) (by with_unfolding_all rfl)

end Vrft
